import Mathlib

/-!
Shallow embedding of the `rust-db` service core (project-scoped binary
key-value store) from `src/services/rust-db/src/`:

* `models.rs`    — row types (`Entry`, `KeyInfo`, `Project`);
* `error.rs`     — `AppError` and its HTTP status mapping;
* `handlers/entries.rs` — `get_entry`, `list_entries_all`, `list_entries`,
  `store_entry`, `delete_entry`;
* `handlers/projects.rs` — `create_project`.

The backing Postgres store is modelled as an explicit state (`Db`): a list of
project ids and a list of entry rows.  Each SQL statement is translated to a
pure function on that state: `INSERT ... ON CONFLICT DO NOTHING` becomes
`ensureProject`, the `ON CONFLICT ... DO UPDATE` upsert becomes `upsertEntry`,
`DELETE` becomes a filter with a `rows_affected` count, `ORDER BY key` becomes
an insertion sort by codepoint-lexicographic key order, and the SQL `LIKE`
predicate (with `\` as escape character) becomes `likeMatch`.
-/

namespace Forgettable

/-- Project identifiers (`uuid::Uuid`) are opaque 128-bit values; only equality
is used, so they are modelled as naturals. -/
abbrev Uuid := Nat

/-- Byte strings (`Vec<u8>` / `Bytes`), modelled as lists of naturals. -/
abbrev Bytes := List Nat

/-- A row of the `entries` table:
`entries(project_id, key, mime_type, content, updated_at)`. -/
structure EntryRow where
  project_id : Uuid
  key : String
  mime_type : String
  content : Bytes
  updated_at : Nat
deriving DecidableEq

/-- `models.rs` `KeyInfo`: the `(key, mime_type)` projection returned by the
listing queries (`SELECT key, mime_type`). Content is structurally absent. -/
structure KeyInfo where
  key : String
  mime_type : String
deriving DecidableEq

/-- The backing relational store: the `projects(id)` table and the
`entries` table. -/
structure Db where
  projects : List Uuid
  entries : List EntryRow
deriving DecidableEq

/-- A freshly initialised store with no projects and no entries. -/
def emptyDb : Db := ⟨[], []⟩

/-- `error.rs` `AppError`: `Database(sqlx::Error)` (the store-access failure,
payload abstracted to a message) and `KeyNotFound(String)`. -/
inductive AppError where
  | Database (msg : String)
  | KeyNotFound (key : String)
deriving DecidableEq

/-- `error.rs` `IntoResponse for AppError`: `Database` maps to HTTP 500
(`INTERNAL_SERVER_ERROR`), `KeyNotFound` to HTTP 404 (`NOT_FOUND`). -/
def AppError.statusCode : AppError → Nat
  | .Database _ => 500
  | .KeyNotFound _ => 404

/-- `error.rs` `Result<T>` = `std::result::Result<T, AppError>`. -/
inductive Result (α : Type) where
  | ok : α → Result α
  | err : AppError → Result α
deriving DecidableEq

/-- The response built by `get_entry` on success: status `200 OK`, a
`Content-Type` header carrying the stored `mime_type`, and the raw content
as body. -/
structure GetResponse where
  status : Nat
  contentType : String
  body : Bytes
deriving DecidableEq

/-- The SQL predicate `project_id = $1 AND key = $2` used by `get_entry` and
`delete_entry`. -/
def matchesKey (project : Uuid) (key : String) (r : EntryRow) : Bool :=
  r.project_id == project && r.key == key

/-- `fetch_optional` of `SELECT ... WHERE project_id = $1 AND key = $2`. -/
def findEntry (db : Db) (project : Uuid) (key : String) : Option EntryRow :=
  db.entries.find? (matchesKey project key)

/-- `handlers/entries.rs` `get_entry`: point lookup; `Some` row yields a 200
response echoing `mime_type` and `content`, `None` yields
`AppError::KeyNotFound(key)`. -/
def get_entry (db : Db) (project : Uuid) (key : String) : Result GetResponse :=
  match findEntry db project key with
  | some entry => .ok ⟨200, entry.mime_type, entry.content⟩
  | none => .err (.KeyNotFound key)

/-- Codepoint-lexicographic order on lists of characters: the order Postgres
`ORDER BY key` realises under byte/codepoint collation (UTF-8 byte order and
codepoint order coincide). -/
def charListLe : List Char → List Char → Bool
  | [], _ => true
  | _ :: _, [] => false
  | a :: as, b :: bs =>
    if a < b then true
    else if a = b then charListLe as bs
    else false

/-- The `ORDER BY key` relation on `KeyInfo` rows. -/
def keyLe (a b : KeyInfo) : Prop := charListLe a.key.data b.key.data = true

instance : DecidableRel keyLe := fun _ _ => instDecidableEqBool _ _

/-- Projection of an entry row to the listing shape (`SELECT key, mime_type`). -/
def entryKeyInfo (r : EntryRow) : KeyInfo := ⟨r.key, r.mime_type⟩

/-- `handlers/entries.rs` `list_entries_all`:
`SELECT key, mime_type FROM entries WHERE project_id = $1 ORDER BY key`. -/
def list_entries_all (db : Db) (project : Uuid) : List KeyInfo :=
  List.insertionSort keyLe
    ((db.entries.filter (fun r => r.project_id == project)).map entryKeyInfo)

/-- `str::replace(c, r)` for a one-character pattern: every occurrence of `c`
is replaced by `r`. -/
def replaceChar (c : Char) (r : List Char) : List Char → List Char
  | [] => []
  | x :: xs => (if x = c then r else [x]) ++ replaceChar c r xs

/-- The escaping chain of `list_entries`:
`prefix.replace('\\', "\\\\").replace('%', "\\%").replace('_', "\\_")`
(escape character first, then each metacharacter). -/
def escapeLike (p : List Char) : List Char :=
  replaceChar '_' ['\\', '_']
    (replaceChar '%' ['\\', '%']
      (replaceChar '\\' ['\\', '\\'] p))

/-- The `LIKE` pattern constructed by `list_entries`:
`format!("{}%", escaped)`. -/
def likePattern (pfx : String) : List Char := escapeLike pfx.data ++ ['%']

/-- Does any suffix of the string satisfy `f`?  Used to give `%` its
"matches any sequence" semantics. -/
def suffixAny (f : List Char → Bool) : List Char → Bool
  | [] => f []
  | x :: xs => f (x :: xs) || suffixAny f xs

/-- SQL `LIKE` with the default escape character `\`: `%` matches any
sequence, `_` matches any single character, `\c` matches `c` literally, any
other pattern character matches itself.  A pattern ending in a dangling `\`
matches nothing (Postgres rejects it; the patterns built by `list_entries`
never produce one). -/
def likeMatch : List Char → List Char → Bool
  | [], s => s.isEmpty
  | c :: ps, s =>
    if c = '\\' then
      match ps, s with
      | c2 :: ps2, x :: xs => x = c2 && likeMatch ps2 xs
      | _, _ => false
    else if c = '%' then
      suffixAny (likeMatch ps) s
    else
      match s with
      | [] => false
      | x :: xs => (c = '_' || x = c) && likeMatch ps xs

/-- `handlers/entries.rs` `list_entries`:
`SELECT key, mime_type FROM entries WHERE project_id = $1 AND key LIKE $2
ORDER BY key`, with the escaped pattern `likePattern pfx`. -/
def list_entries (db : Db) (project : Uuid) (pfx : String) : List KeyInfo :=
  List.insertionSort keyLe
    ((db.entries.filter
        (fun r => r.project_id == project && likeMatch (likePattern pfx) r.key.data)).map
      entryKeyInfo)

/-- The default content type of `store_entry`. -/
def octetStream : String := "application/octet-stream"

/-- `INSERT INTO projects (id) VALUES ($1) ON CONFLICT (id) DO NOTHING`. -/
def ensureProject (db : Db) (project : Uuid) : Db :=
  if project ∈ db.projects then db
  else { db with projects := project :: db.projects }

/-- `INSERT INTO entries ... ON CONFLICT (project_id, key) DO UPDATE SET
mime_type = EXCLUDED.mime_type, content = EXCLUDED.content,
updated_at = NOW()`: if a row with the same `(project_id, key)` exists it is
replaced in place, otherwise the row is appended. -/
def upsertEntry (rows : List EntryRow) (project : Uuid) (key : String)
    (mime_type : String) (content : Bytes) (now : Nat) : List EntryRow :=
  if rows.any (matchesKey project key) then
    rows.map (fun r =>
      if matchesKey project key r then ⟨project, key, mime_type, content, now⟩ else r)
  else
    rows ++ [⟨project, key, mime_type, content, now⟩]

/-- `handlers/entries.rs` `store_entry`: the content type defaults to
`application/octet-stream` when the `Content-Type` header is absent; the
project row is ensured first, then the entry is upserted; the handler always
returns `201 CREATED`. -/
def store_entry (db : Db) (project : Uuid) (key : String)
    (contentType : Option String) (body : Bytes) (now : Nat) : Db × Nat :=
  let mime_type := Option.getD contentType octetStream
  let db1 := ensureProject db project
  let db2 := { db1 with entries := upsertEntry db1.entries project key mime_type body now }
  (db2, 201)

/-- `handlers/entries.rs` `delete_entry`:
`DELETE FROM entries WHERE project_id = $1 AND key = $2`; when
`rows_affected() == 0` the handler returns `AppError::KeyNotFound(key)`,
otherwise `204 NO_CONTENT`. -/
def delete_entry (db : Db) (project : Uuid) (key : String) : Db × Result Nat :=
  let affected := (db.entries.filter (matchesKey project key)).length
  let db2 := { db with entries := db.entries.filter (fun r => !(matchesKey project key r)) }
  (db2, if affected = 0 then .err (.KeyNotFound key) else .ok 204)

/-- `handlers/projects.rs` `create_project`:
`INSERT INTO projects DEFAULT VALUES RETURNING id`; the store-generated
identifier is a parameter of the model. -/
def create_project (db : Db) (id : Uuid) : Db × Uuid :=
  ({ db with projects := id :: db.projects }, id)

/-- The state-changing operations of the core, for stating invariants over
arbitrary operation sequences. -/
inductive Op where
  | createProject (id : Uuid)
  | store (project : Uuid) (key : String) (contentType : Option String)
      (body : Bytes) (now : Nat)
  | delete (project : Uuid) (key : String)

/-- Apply one operation to the store, keeping only the resulting state. -/
def applyOp (db : Db) : Op → Db
  | .createProject id => (create_project db id).1
  | .store p k ct body now => (store_entry db p k ct body now).1
  | .delete p k => (delete_entry db p k).1

/-- Run a sequence of operations from a given state. -/
def applyOps (db : Db) (ops : List Op) : Db := ops.foldl applyOp db

/-- Referential integrity: every `project_id` in an entry row is present in
the `projects` table. -/
def RefIntegrity (db : Db) : Prop :=
  ∀ r ∈ db.entries, r.project_id ∈ db.projects

/-- Uniqueness of `(project_id, key)` across entry rows (the table's
uniqueness constraint). -/
def UniqEntries (rows : List EntryRow) : Prop :=
  rows.Pairwise (fun a b => ¬(a.project_id = b.project_id ∧ a.key = b.key))

/-- Per-character escaping: the escape character and the two metacharacters
are each preceded by a backslash, every other character is untouched.  This is
the canonical, order-independent description of the escaping transform; the
source's three-replace chain `escapeLike` is proved equal to it. -/
def escapeChar (c : Char) : List Char :=
  if c = '\\' ∨ c = '%' ∨ c = '_' then ['\\', c] else [c]

/-- `escapeChar` mapped over the input. -/
def escapeFlat : List Char → List Char
  | [] => []
  | c :: cs => escapeChar c ++ escapeFlat cs

theorem replaceChar_append (c : Char) (r a b : List Char) :
    replaceChar c r (a ++ b) = replaceChar c r a ++ replaceChar c r b := by
  induction a with
  | nil => simp [replaceChar]
  | cons x xs ih => simp [replaceChar, ih]

/-- The source's escaping chain (escape character first, then `%`, then `_`)
coincides with the canonical per-character escaping. -/
theorem escapeLike_eq_escapeFlat (p : List Char) : escapeLike p = escapeFlat p := by
  induction p with
  | nil => simp [escapeLike, replaceChar, escapeFlat]
  | cons c cs ih =>
    have hcons : escapeLike (c :: cs) =
        replaceChar '_' ['\\', '_']
          (replaceChar '%' ['\\', '%']
            ((if c = '\\' then ['\\', '\\'] else [c]) ++
              replaceChar '\\' ['\\', '\\'] cs)) := by
      simp [escapeLike, replaceChar]
    rw [hcons, replaceChar_append, replaceChar_append]
    have hhead :
        replaceChar '_' ['\\', '_']
          (replaceChar '%' ['\\', '%'] (if c = '\\' then ['\\', '\\'] else [c])) =
        escapeChar c := by
      by_cases h1 : c = '\\'
      · subst h1; simp [replaceChar, escapeChar]
      · by_cases h2 : c = '%'
        · subst h2; simp [replaceChar, escapeChar]
        · by_cases h3 : c = '_'
          · subst h3; simp [replaceChar, escapeChar]
          · simp [replaceChar, escapeChar, h1, h2, h3]
    rw [hhead]
    have htail : replaceChar '_' ['\\', '_']
        (replaceChar '%' ['\\', '%'] (replaceChar '\\' ['\\', '\\'] cs)) = escapeFlat cs := by
      simpa [escapeLike] using ih
    rw [htail, escapeFlat]

theorem suffixAny_of_nil (f : List Char → Bool) (h : f [] = true) :
    ∀ s, suffixAny f s = true
  | [] => by simpa [suffixAny] using h
  | _ :: xs => by simp [suffixAny, suffixAny_of_nil f h xs]

theorem likeMatch_nil (s : List Char) : likeMatch [] s = s.isEmpty := by
  rw [likeMatch.eq_def]

theorem likeMatch_esc_nil (c : Char) (ps : List Char) :
    likeMatch ('\\' :: c :: ps) [] = false := by
  rw [likeMatch.eq_def]; simp

theorem likeMatch_esc_cons (c : Char) (ps : List Char) (x : Char) (xs : List Char) :
    likeMatch ('\\' :: c :: ps) (x :: xs) = (decide (x = c) && likeMatch ps xs) := by
  rw [likeMatch.eq_def]; simp

theorem likeMatch_pct_head (ps s : List Char) :
    likeMatch ('%' :: ps) s = suffixAny (likeMatch ps) s := by
  rw [likeMatch.eq_def]; simp

theorem likeMatch_ord_nil (c : Char) (ps : List Char)
    (h1 : c ≠ '\\') (h2 : c ≠ '%') : likeMatch (c :: ps) [] = false := by
  rw [likeMatch.eq_def]; simp [h1, h2]

theorem likeMatch_ord_cons (c : Char) (ps : List Char) (x : Char) (xs : List Char)
    (h1 : c ≠ '\\') (h2 : c ≠ '%') :
    likeMatch (c :: ps) (x :: xs) =
      ((decide (c = '_') || decide (x = c)) && likeMatch ps xs) := by
  rw [likeMatch.eq_def]; simp [h1, h2]

/-- The bare pattern `%` matches every string. -/
theorem likeMatch_pct (s : List Char) : likeMatch ['%'] s = true := by
  rw [likeMatch_pct_head]
  exact suffixAny_of_nil _ (by simp [likeMatch_nil]) s

/-- Soundness of the escaping transform: the pattern `escapeFlat p ++ "%"`
matches, under `LIKE` semantics, exactly the strings of which `p` is a
literal character-for-character prefix. -/
theorem likeMatch_escapeFlat (p s : List Char) :
    likeMatch (escapeFlat p ++ ['%']) s = p.isPrefixOf s := by
  induction p generalizing s with
  | nil =>
    simpa [escapeFlat, List.isPrefixOf] using likeMatch_pct s
  | cons c cs ih =>
    by_cases hc : c = '\\' ∨ c = '%' ∨ c = '_'
    · have hpat : escapeFlat (c :: cs) ++ ['%'] =
          '\\' :: c :: (escapeFlat cs ++ ['%']) := by
        simp [escapeFlat, escapeChar, hc]
      rw [hpat]
      cases s with
      | nil =>
        rw [likeMatch_esc_nil]
        simp [List.isPrefixOf]
      | cons x xs =>
        rw [likeMatch_esc_cons]
        rcases eq_or_ne x c with h | h
        · subst h; simp [List.isPrefixOf, ih]
        · simp [List.isPrefixOf, h, Ne.symm h]
    · push_neg at hc
      obtain ⟨h1, h2, h3⟩ := hc
      have hpat : escapeFlat (c :: cs) ++ ['%'] = c :: (escapeFlat cs ++ ['%']) := by
        simp [escapeFlat, escapeChar, h1, h2, h3]
      rw [hpat]
      cases s with
      | nil =>
        rw [likeMatch_ord_nil c _ h1 h2]
        simp [List.isPrefixOf]
      | cons x xs =>
        rw [likeMatch_ord_cons c _ x xs h1 h2]
        rcases eq_or_ne x c with h | h
        · subst h; simp [List.isPrefixOf, ih, h3]
        · simp [List.isPrefixOf, h, Ne.symm h, h3]

/-- `escapeChar` never produces the empty list. -/
theorem escapeChar_ne_nil (c : Char) : escapeChar c ≠ [] := by
  unfold escapeChar
  split <;> simp

/-- The escaping transform is injective: distinct inputs yield distinct
escaped strings (the escaped alphabet is a prefix code: `[c]` for ordinary
`c`, which is never a backslash, and `['\\', m]` for metacharacters `m`). -/
theorem escapeFlat_injective : ∀ a b : List Char, escapeFlat a = escapeFlat b → a = b := by
  intro a
  induction a with
  | nil =>
    intro b h
    cases b with
    | nil => rfl
    | cons d ds =>
      exfalso
      rw [escapeFlat, escapeFlat] at h
      rcases List.append_eq_nil.mp h.symm with ⟨hd, _⟩
      exact escapeChar_ne_nil d hd
  | cons c cs ih =>
    intro b h
    cases b with
    | nil =>
      exfalso
      rw [escapeFlat, escapeFlat] at h
      rcases List.append_eq_nil.mp h with ⟨hd, _⟩
      exact escapeChar_ne_nil c hd
    | cons d ds =>
      rw [escapeFlat, escapeFlat] at h
      by_cases hc : c = '\\' ∨ c = '%' ∨ c = '_' <;>
        by_cases hd : d = '\\' ∨ d = '%' ∨ d = '_'
      · rw [escapeChar, if_pos hc, escapeChar, if_pos hd] at h
        simp only [List.cons_append, List.cons.injEq] at h
        obtain ⟨-, hcd, htl⟩ := h
        rw [hcd, ih ds htl]
      · rw [escapeChar, if_pos hc, escapeChar, if_neg hd] at h
        simp only [List.cons_append, List.cons.injEq] at h
        exact absurd (Or.inl h.1.symm) hd
      · rw [escapeChar, if_neg hc, escapeChar, if_pos hd] at h
        simp only [List.cons_append, List.cons.injEq] at h
        exact absurd (Or.inl h.1) hc
      · rw [escapeChar, if_neg hc, escapeChar, if_neg hd] at h
        simp only [List.cons_append, List.cons.injEq] at h
        rw [h.1, ih ds h.2]

theorem charListLe_total : ∀ a b : List Char, charListLe a b = true ∨ charListLe b a = true := by
  intro a
  induction a with
  | nil => intro b; left; rfl
  | cons x xs ih =>
    intro b
    cases b with
    | nil => right; rfl
    | cons y ys =>
      rcases lt_trichotomy x y with h | h | h
      · left; simp [charListLe, h]
      · subst h
        rcases ih ys with h2 | h2
        · left; simp [charListLe, h2]
        · right; simp [charListLe, h2]
      · right; simp [charListLe, h]

theorem charListLe_trans : ∀ a b c : List Char,
    charListLe a b = true → charListLe b c = true → charListLe a c = true := by
  intro a
  induction a with
  | nil => intro b c _ _; rfl
  | cons x xs ih =>
    intro b c hab hbc
    cases b with
    | nil => simp [charListLe] at hab
    | cons y ys =>
      cases c with
      | nil => simp [charListLe] at hbc
      | cons z zs =>
        by_cases h1 : x < y
        · by_cases h2 : y < z
          · simp [charListLe, lt_trans h1 h2]
          · by_cases h3 : y = z
            · subst h3; simp [charListLe, h1]
            · simp [charListLe, h2, h3] at hbc
        · by_cases h4 : x = y
          · subst h4
            by_cases h2 : x < z
            · simp [charListLe, h2]
            · by_cases h3 : x = z
              · subst h3
                simp [charListLe, lt_irrefl] at hab hbc
                simp [charListLe, lt_irrefl, ih ys zs hab hbc]
              · simp [charListLe, h2, h3] at hbc
          · simp [charListLe, h1, h4] at hab

instance : IsTotal KeyInfo keyLe :=
  ⟨fun a b => charListLe_total a.key.data b.key.data⟩

instance : IsTrans KeyInfo keyLe :=
  ⟨fun a b c => charListLe_trans a.key.data b.key.data c.key.data⟩

/-- Spec-side description of `ListByPrefix`, for comparison with the
implementation: the entries of the project whose keys have `pfx` as a literal
character-for-character prefix, sorted by key. -/
def listByPrefixSpec (db : Db) (project : Uuid) (pfx : String) : List KeyInfo :=
  List.insertionSort keyLe
    ((db.entries.filter
        (fun r => r.project_id == project && pfx.data.isPrefixOf r.key.data)).map
      entryKeyInfo)

/-- Refinement: the `LIKE`-based implementation of prefix listing computes
exactly the spec-side literal starts-with listing. -/
theorem list_entries_eq_spec (db : Db) (project : Uuid) (pfx : String) :
    list_entries db project pfx = listByPrefixSpec db project pfx := by
  unfold list_entries listByPrefixSpec
  congr 1
  congr 1
  apply List.filter_congr
  intro r _
  rw [likePattern, escapeLike_eq_escapeFlat, likeMatch_escapeFlat]

theorem matchesKey_eq_true (project : Uuid) (key : String) (r : EntryRow) :
    matchesKey project key r = true ↔ (r.project_id = project ∧ r.key = key) := by
  simp [matchesKey]

theorem matchesKey_self (project : Uuid) (key : String) (mt : String) (body : Bytes)
    (now : Nat) : matchesKey project key ⟨project, key, mt, body, now⟩ = true := by
  simp [matchesKey]

theorem find_map_update (rows : List EntryRow) (project : Uuid) (key : String)
    (new : EntryRow) (hnew : matchesKey project key new = true)
    (hany : rows.any (matchesKey project key) = true) :
    (rows.map (fun r => if matchesKey project key r then new else r)).find?
      (matchesKey project key) = some new := by
  induction rows with
  | nil => simp at hany
  | cons r rs ih =>
    by_cases h : matchesKey project key r = true
    · simp only [List.map_cons, if_pos h]
      exact List.find?_cons_of_pos _ hnew
    · simp only [List.map_cons, if_neg h]
      rw [List.find?_cons_of_neg _ h]
      apply ih
      simpa [h] using hany

theorem find_append_new (rows : List EntryRow) (project : Uuid) (key : String)
    (new : EntryRow) (hnew : matchesKey project key new = true)
    (hany : rows.any (matchesKey project key) = false) :
    (rows ++ [new]).find? (matchesKey project key) = some new := by
  induction rows with
  | nil =>
    rw [List.nil_append]
    exact List.find?_cons_of_pos _ hnew
  | cons r rs ih =>
    have h : matchesKey project key r = false := by
      by_contra hc
      simp [Bool.not_eq_false] at hc
      simp [hc] at hany
    rw [List.cons_append, List.find?_cons_of_neg _ (by simp [h])]
    apply ih
    simpa [h] using hany

/-- After an upsert, lookup of the upserted pair finds exactly the new row. -/
theorem find_upsertEntry (rows : List EntryRow) (project : Uuid) (key : String)
    (mime_type : String) (content : Bytes) (now : Nat) :
    (upsertEntry rows project key mime_type content now).find? (matchesKey project key) =
      some ⟨project, key, mime_type, content, now⟩ := by
  unfold upsertEntry
  by_cases hany : rows.any (matchesKey project key) = true
  · rw [if_pos hany]
    exact find_map_update rows project key _ (matchesKey_self ..) hany
  · rw [if_neg hany]
    exact find_append_new rows project key _ (matchesKey_self ..)
      (Bool.not_eq_true _ ▸ hany)

/-- Every row of an upsert result is either the new row or an untouched
original row. -/
theorem mem_upsertEntry (rows : List EntryRow) (project : Uuid) (key : String)
    (mime_type : String) (content : Bytes) (now : Nat) (r : EntryRow)
    (hr : r ∈ upsertEntry rows project key mime_type content now) :
    r = ⟨project, key, mime_type, content, now⟩ ∨ r ∈ rows := by
  unfold upsertEntry at hr
  by_cases hany : rows.any (matchesKey project key) = true
  · rw [if_pos hany] at hr
    rcases List.mem_map.mp hr with ⟨r0, hr0, heq⟩
    by_cases hm : matchesKey project key r0 = true
    · left; rw [← heq, if_pos hm]
    · right; rw [← heq, if_neg hm]; exact hr0
  · rw [if_neg hany] at hr
    rcases List.mem_append.mp hr with h | h
    · right; exact h
    · left; simpa using h

/-- Point lookup immediately after a store finds the stored row: the echoed
content type is the supplied one (or the default), the body is the stored
content, byte-for-byte. -/
theorem get_after_store (db : Db) (project : Uuid) (key : String)
    (contentType : Option String) (body : Bytes) (now : Nat) :
    get_entry (store_entry db project key contentType body now).1 project key =
      .ok ⟨200, Option.getD contentType octetStream, body⟩ := by
  unfold get_entry findEntry store_entry
  simp only []
  rw [find_upsertEntry]

/-- The state left by `delete_entry`: the project's row for `key` filtered
out, everything else untouched (also when nothing matched). -/
theorem delete_entry_fst (db : Db) (project : Uuid) (key : String) :
    (delete_entry db project key).1 =
      { db with entries := db.entries.filter (fun r => !(matchesKey project key r)) } := rfl

/-- The result reported by `delete_entry`, as a function of the number of
affected rows. -/
theorem delete_entry_snd (db : Db) (project : Uuid) (key : String) :
    (delete_entry db project key).2 =
      if (db.entries.filter (matchesKey project key)).length = 0 then
        .err (.KeyNotFound key)
      else .ok 204 := rfl

/-- `delete_entry` leaves no row for the deleted pair. -/
theorem find_after_delete (db : Db) (project : Uuid) (key : String) :
    findEntry (delete_entry db project key).1 project key = none := by
  rw [delete_entry_fst]
  unfold findEntry
  simp only []
  rw [List.find?_eq_none]
  intro r hr
  have := (List.mem_filter.mp hr).2
  simp only [Bool.not_eq_true'] at this
  simp [this]

/-- `delete_entry` does not disturb rows for any other `(project, key)` pair. -/
theorem find_delete_other (db : Db) (project : Uuid) (key : String)
    (p2 : Uuid) (k2 : String) (hne : ¬(p2 = project ∧ k2 = key)) :
    findEntry (delete_entry db project key).1 p2 k2 = findEntry db p2 k2 := by
  rw [delete_entry_fst]
  unfold findEntry
  have key_disjoint : ∀ r : EntryRow, matchesKey p2 k2 r = true →
      matchesKey project key r = false := by
    intro r hr
    rcases (matchesKey_eq_true ..).mp hr with ⟨hp, hk⟩
    by_contra hc
    simp only [Bool.not_eq_false] at hc
    rcases (matchesKey_eq_true ..).mp hc with ⟨hp2, hk2⟩
    exact hne ⟨hp ▸ hp2 ▸ rfl, hk ▸ hk2 ▸ rfl⟩
  have main : ∀ rows : List EntryRow,
      (rows.filter (fun r => !(matchesKey project key r))).find? (matchesKey p2 k2) =
        rows.find? (matchesKey p2 k2) := by
    intro rows
    induction rows with
    | nil => simp
    | cons r rs ih =>
      by_cases hf : matchesKey project key r = true
      · have hq : matchesKey p2 k2 r = false := by
          by_contra hc
          simp only [Bool.not_eq_false] at hc
          rw [key_disjoint r hc] at hf
          exact Bool.false_ne_true hf
        rw [List.filter_cons_of_neg (by simp [hf]), List.find?_cons_of_neg _ (by simp [hq]), ih]
      · rw [List.filter_cons_of_pos (by simp [Bool.not_eq_true _ ▸ hf])]
        by_cases hq : matchesKey p2 k2 r = true
        · rw [List.find?_cons_of_pos _ hq, List.find?_cons_of_pos _ hq]
        · rw [List.find?_cons_of_neg _ hq, List.find?_cons_of_neg _ hq, ih]
  exact main db.entries

theorem ensureProject_entries (db : Db) (project : Uuid) :
    (ensureProject db project).entries = db.entries := by
  unfold ensureProject
  split <;> rfl

theorem mem_ensureProject_self (db : Db) (project : Uuid) :
    project ∈ (ensureProject db project).projects := by
  unfold ensureProject
  split
  · assumption
  · exact List.mem_cons_self ..

theorem ensureProject_projects_subset (db : Db) (project : Uuid) :
    db.projects ⊆ (ensureProject db project).projects := by
  unfold ensureProject
  split
  · exact fun _ h => h
  · exact fun _ h => List.mem_cons_of_mem _ h

/-- `ensureProject` is a silent no-op when the project already exists. -/
theorem ensureProject_noop (db : Db) (project : Uuid) (h : project ∈ db.projects) :
    ensureProject db project = db := by
  unfold ensureProject
  exact if_pos h

theorem store_entry_fst_entries (db : Db) (project : Uuid) (key : String)
    (contentType : Option String) (body : Bytes) (now : Nat) :
    (store_entry db project key contentType body now).1.entries =
      upsertEntry (ensureProject db project).entries project key
        (Option.getD contentType octetStream) body now := rfl

theorem store_entry_fst_projects (db : Db) (project : Uuid) (key : String)
    (contentType : Option String) (body : Bytes) (now : Nat) :
    (store_entry db project key contentType body now).1.projects =
      (ensureProject db project).projects := rfl

/-- `store_entry` reports `201 CREATED` unconditionally: the caller cannot
tell an insert from an update. -/
theorem store_entry_snd (db : Db) (project : Uuid) (key : String)
    (contentType : Option String) (body : Bytes) (now : Nat) :
    (store_entry db project key contentType body now).2 = 201 := rfl

theorem refIntegrity_store (db : Db) (project : Uuid) (key : String)
    (contentType : Option String) (body : Bytes) (now : Nat)
    (h : RefIntegrity db) : RefIntegrity (store_entry db project key contentType body now).1 := by
  intro r hr
  rw [store_entry_fst_entries] at hr
  rw [store_entry_fst_projects]
  rcases mem_upsertEntry _ _ _ _ _ _ r hr with heq | hmem
  · rw [heq]
    exact mem_ensureProject_self db project
  · rw [ensureProject_entries] at hmem
    exact ensureProject_projects_subset db project (h r hmem)

theorem refIntegrity_applyOp (db : Db) (op : Op) (h : RefIntegrity db) :
    RefIntegrity (applyOp db op) := by
  cases op with
  | createProject id =>
    intro r hr
    exact List.mem_cons_of_mem _ (h r hr)
  | store p k ct body now => exact refIntegrity_store db p k ct body now h
  | delete p k =>
    intro r hr
    rw [show applyOp db (.delete p k) = (delete_entry db p k).1 from rfl,
      delete_entry_fst] at hr
    exact h r (List.mem_filter.mp hr).1

theorem refIntegrity_applyOps (ops : List Op) :
    ∀ db : Db, RefIntegrity db → RefIntegrity (applyOps db ops) := by
  induction ops with
  | nil => exact fun db h => h
  | cons op ops ih =>
    intro db h
    rw [applyOps, List.foldl_cons]
    exact ih (applyOp db op) (refIntegrity_applyOp db op h)

theorem refIntegrity_empty : RefIntegrity emptyDb := by
  intro r hr
  simp [emptyDb] at hr

theorem uniq_upsertEntry (rows : List EntryRow) (project : Uuid) (key : String)
    (mime_type : String) (content : Bytes) (now : Nat) (h : UniqEntries rows) :
    UniqEntries (upsertEntry rows project key mime_type content now) := by
  unfold upsertEntry
  by_cases hany : rows.any (matchesKey project key) = true
  · rw [if_pos hany]
    rw [UniqEntries, List.pairwise_map]
    refine h.imp ?_
    intro a b hab
    by_cases ha : matchesKey project key a = true <;>
      by_cases hb : matchesKey project key b = true
    · exfalso
      rcases (matchesKey_eq_true ..).mp ha with ⟨hap, hak⟩
      rcases (matchesKey_eq_true ..).mp hb with ⟨hbp, hbk⟩
      exact hab ⟨hap.trans hbp.symm, hak.trans hbk.symm⟩
    · rw [if_pos ha, if_neg hb]
      rintro ⟨hp, hk⟩
      exact hb ((matchesKey_eq_true ..).mpr ⟨hp.symm, hk.symm⟩)
    · rw [if_neg ha, if_pos hb]
      rintro ⟨hp, hk⟩
      exact ha ((matchesKey_eq_true ..).mpr ⟨hp, hk⟩)
    · rw [if_neg ha, if_neg hb]
      exact hab
  · rw [if_neg hany]
    rw [UniqEntries, List.pairwise_append]
    refine ⟨h, List.pairwise_singleton _ _, ?_⟩
    intro a ha b hb
    rw [List.mem_singleton] at hb
    subst hb
    rintro ⟨hp, hk⟩
    exact hany (List.any_eq_true.mpr ⟨a, ha, (matchesKey_eq_true ..).mpr ⟨hp, hk⟩⟩)

theorem uniq_applyOp (db : Db) (op : Op) (h : UniqEntries db.entries) :
    UniqEntries (applyOp db op).entries := by
  cases op with
  | createProject id => exact h
  | store p k ct body now =>
    show UniqEntries (store_entry db p k ct body now).1.entries
    rw [store_entry_fst_entries]
    apply uniq_upsertEntry
    rw [ensureProject_entries]
    exact h
  | delete p k =>
    show UniqEntries (delete_entry db p k).1.entries
    rw [delete_entry_fst]
    exact List.Pairwise.sublist (List.filter_sublist _) h

theorem uniq_applyOps (ops : List Op) :
    ∀ db : Db, UniqEntries db.entries → UniqEntries (applyOps db ops).entries := by
  induction ops with
  | nil => exact fun _ h => h
  | cons op ops ih =>
    intro db h
    rw [applyOps, List.foldl_cons]
    exact ih (applyOp db op) (uniq_applyOp db op h)

/-- Does this operation store under exactly this `(project, key)` pair? -/
def storesTo (project : Uuid) (key : String) : Op → Bool
  | .store p2 k2 _ _ _ => p2 == project && k2 == key
  | _ => false

theorem findEntry_none_iff (db : Db) (project : Uuid) (key : String) :
    findEntry db project key = none ↔
      ∀ r ∈ db.entries, ¬(r.project_id = project ∧ r.key = key) := by
  unfold findEntry
  rw [List.find?_eq_none]
  simp only [matchesKey_eq_true]

theorem noEntry_applyOp (db : Db) (op : Op) (project : Uuid) (key : String)
    (hnone : findEntry db project key = none)
    (hop : storesTo project key op = false) :
    findEntry (applyOp db op) project key = none := by
  cases op with
  | createProject id => exact hnone
  | store p2 k2 ct body now =>
    have hne : ¬(p2 = project ∧ k2 = key) := by
      simpa [storesTo] using hop
    rw [findEntry_none_iff] at hnone ⊢
    intro r hr
    rw [show applyOp db (.store p2 k2 ct body now) = (store_entry db p2 k2 ct body now).1 from rfl,
      store_entry_fst_entries] at hr
    rcases mem_upsertEntry _ _ _ _ _ _ r hr with heq | hmem
    · rw [heq]
      rintro ⟨hp, hk⟩
      exact hne ⟨hp, hk⟩
    · rw [ensureProject_entries] at hmem
      exact hnone r hmem
  | delete p2 k2 =>
    rw [findEntry_none_iff] at hnone ⊢
    intro r hr
    rw [show applyOp db (.delete p2 k2) = (delete_entry db p2 k2).1 from rfl,
      delete_entry_fst] at hr
    exact hnone r (List.mem_filter.mp hr).1

/-- A pair never stored to is absent after any operation sequence from the
empty store. -/
theorem noEntry_applyOps (ops : List Op) (project : Uuid) (key : String) :
    ∀ db : Db, findEntry db project key = none →
      (∀ op ∈ ops, storesTo project key op = false) →
      findEntry (applyOps db ops) project key = none := by
  induction ops with
  | nil => exact fun _ h _ => h
  | cons op ops ih =>
    intro db h hops
    rw [applyOps, List.foldl_cons]
    exact ih (applyOp db op)
      (noEntry_applyOp db op project key h (hops op (List.mem_cons_self ..)))
      (fun op2 h2 => hops op2 (List.mem_cons_of_mem _ h2))

theorem get_entry_err_iff (db : Db) (project : Uuid) (key : String) :
    get_entry db project key = .err (.KeyNotFound key) ↔
      findEntry db project key = none := by
  unfold get_entry
  cases h : findEntry db project key <;> simp

theorem findEntry_none_iff_filter (db : Db) (project : Uuid) (key : String) :
    findEntry db project key = none ↔
      db.entries.filter (matchesKey project key) = [] := by
  rw [findEntry_none_iff, List.filter_eq_nil_iff]
  simp only [matchesKey_eq_true]

/-- `delete_entry` reports `KeyNotFound` exactly when no row exists for the
pair. -/
theorem delete_entry_err_iff (db : Db) (project : Uuid) (key : String) :
    (delete_entry db project key).2 = .err (.KeyNotFound key) ↔
      findEntry db project key = none := by
  by_cases hlen : (db.entries.filter (matchesKey project key)).length = 0
  · rw [delete_entry_snd, if_pos hlen]
    have hf : findEntry db project key = none :=
      (findEntry_none_iff_filter ..).mpr (List.length_eq_zero.mp hlen)
    exact ⟨fun _ => hf, fun _ => rfl⟩
  · rw [delete_entry_snd, if_neg hlen]
    constructor
    · intro h
      exact absurd h (by simp)
    · intro h
      exact absurd (List.length_eq_zero.mpr ((findEntry_none_iff_filter ..).mp h)) hlen

/-- `delete_entry` succeeds with `204` exactly when a row existed. -/
theorem delete_entry_ok_iff (db : Db) (project : Uuid) (key : String) :
    (delete_entry db project key).2 = .ok 204 ↔
      findEntry db project key ≠ none := by
  by_cases hlen : (db.entries.filter (matchesKey project key)).length = 0
  · rw [delete_entry_snd, if_pos hlen]
    have hf : findEntry db project key = none :=
      (findEntry_none_iff_filter ..).mpr (List.length_eq_zero.mp hlen)
    constructor
    · intro h
      exact absurd h (by simp)
    · intro h
      exact absurd hf h
  · rw [delete_entry_snd, if_neg hlen]
    refine ⟨fun _ h => ?_, fun _ => rfl⟩
    exact absurd (List.length_eq_zero.mpr ((findEntry_none_iff_filter ..).mp h)) hlen

/-- A freshly stored entry shows up (key and content type, no content) in a
subsequent full listing of the project. -/
theorem mem_list_after_store (db : Db) (project : Uuid) (key : String)
    (contentType : Option String) (body : Bytes) (now : Nat) :
    (⟨key, Option.getD contentType octetStream⟩ : KeyInfo) ∈
      list_entries_all (store_entry db project key contentType body now).1 project := by
  have hmem : (⟨project, key, Option.getD contentType octetStream, body, now⟩ : EntryRow) ∈
      (store_entry db project key contentType body now).1.entries := by
    rw [store_entry_fst_entries]
    exact List.mem_of_find?_eq_some (find_upsertEntry ..)
  unfold list_entries_all
  rw [List.Perm.mem_iff (List.perm_insertionSort ..)]
  exact List.mem_map.mpr ⟨_, List.mem_filter.mpr ⟨hmem, by simp⟩, rfl⟩

/-! Concrete example data for the spec's worked examples. -/

def exMime : String := "text/plain"

def keyUser1 : String := "user:1"

def keyUser2 : String := "user:2"

def keyUseCase : String := "use_case"

def keyOther : String := "other"

def pfxUse : String := "use"

def pfx100 : String := "100%"

def key100x : String := "100%x"

def key1000 : String := "1000"

def emptyPfx : String := ""

/-- A project (id 1) holding the spec's example keys
`{"user:1","user:2","use_case","other"}`. -/
def exDb : Db :=
  ⟨[1],
   [⟨1, keyUser1, exMime, [1], 0⟩, ⟨1, keyUser2, exMime, [2], 0⟩,
    ⟨1, keyUseCase, exMime, [3], 0⟩, ⟨1, keyOther, exMime, [4], 0⟩]⟩

/-- A project (id 2) holding the keys `{"100%x","1000"}`, distinguishing a
literal `%` in the requested prefix from a wildcard. -/
def exDb2 : Db :=
  ⟨[2], [⟨2, key100x, exMime, [], 0⟩, ⟨2, key1000, exMime, [], 0⟩]⟩

/-- Claim C1: prefix listing is literal, byte-for-byte starts-with matching —
`list_entries` coincides with the spec-side starts-with listing for every
store state and every requested string, metacharacters included; on the
example store, listing with `"use"` returns exactly
`["use_case","user:1","user:2"]` in sorted order, and a prefix `"100%"`
matches only keys literally starting with `1`,`0`,`0`,`%`, never treating
`%` as a wildcard. -/
theorem claim_C1_list_by_prefix_literal :
    (∀ (db : Db) (project : Uuid) (pfx : String),
        list_entries db project pfx = listByPrefixSpec db project pfx) ∧
    list_entries exDb 1 pfxUse =
      [⟨keyUseCase, exMime⟩, ⟨keyUser1, exMime⟩, ⟨keyUser2, exMime⟩] ∧
    list_entries exDb2 2 pfx100 = [⟨key100x, exMime⟩] :=
  ⟨list_entries_eq_spec, by decide, by decide⟩

/-- Claim C2: storing `(mimeType, content)` under `(P, K)` and immediately
reading `(P, K)` yields exactly that pair — the content byte-for-byte
(including empty content and arbitrary byte values) and the content-type
echoed verbatim. -/
theorem claim_C2_store_get_roundtrip (db : Db) (project : Uuid)
    (key mime : String) (content : Bytes) (now : Nat) :
    get_entry (store_entry db project key (some mime) content now).1 project key =
      .ok ⟨200, mime, content⟩ :=
  get_after_store db project key (some mime) content now

/-- Claim C3: a second store to the same pair fully replaces mime type,
content and timestamp (last write wins on read); every store — fresh or
overwriting — reports the same `201` success; and every state reachable from
the empty store keeps at most one entry row per `(project, key)` pair. -/
theorem claim_C3_upsert_last_write_wins :
    (∀ (db : Db) (project : Uuid) (key mimeA mimeB : String) (x y : Bytes) (t1 t2 : Nat),
        get_entry (store_entry (store_entry db project key (some mimeA) x t1).1
            project key (some mimeB) y t2).1 project key = .ok ⟨200, mimeB, y⟩) ∧
    (∀ (db : Db) (project : Uuid) (key : String) (contentType : Option String)
        (body : Bytes) (now : Nat),
        (store_entry db project key contentType body now).2 = 201) ∧
    (∀ ops : List Op, UniqEntries (applyOps emptyDb ops).entries) :=
  ⟨fun _ project key _ mimeB _ y _ t2 =>
      get_after_store _ project key (some mimeB) y t2,
   fun _ _ _ _ _ _ => store_entry_snd ..,
   fun ops => uniq_applyOps ops emptyDb (List.Pairwise.nil)⟩

/-- Claim C4: every store first establishes the project row via an idempotent
insert-if-absent (`ensureProject` is a silent no-op when the project exists),
so referential integrity — every `project_id` in an entry row exists in the
project registry — holds after any operation sequence from the empty store;
storing under a never-created identifier succeeds with `201`, registers the
project, and the stored entry appears in a subsequent listing. -/
theorem claim_C4_implicit_project_creation :
    (∀ ops : List Op, RefIntegrity (applyOps emptyDb ops)) ∧
    (∀ (db : Db) (project : Uuid), project ∈ db.projects → ensureProject db project = db) ∧
    (∀ (db : Db) (project : Uuid) (key : String) (contentType : Option String)
        (body : Bytes) (now : Nat),
        project ∈ (store_entry db project key contentType body now).1.projects ∧
        (store_entry db project key contentType body now).2 = 201 ∧
        (⟨key, Option.getD contentType octetStream⟩ : KeyInfo) ∈
          list_entries_all (store_entry db project key contentType body now).1 project) :=
  ⟨fun ops => refIntegrity_applyOps ops emptyDb refIntegrity_empty,
   ensureProject_noop,
   fun db project key contentType body now =>
     ⟨by rw [store_entry_fst_projects]; exact mem_ensureProject_self db project,
      store_entry_snd ..,
      mem_list_after_store ..⟩⟩

/-- Witness for claim C4 at a concrete store: `ensureProject` on an already
registered project is the identity. -/
theorem claim_C4_witness : ensureProject exDb 1 = exDb :=
  claim_C4_implicit_project_creation.2.1 exDb 1 (by decide)

/-- Claim C5: `get_entry` reports `KeyNotFound` exactly when no entry row
exists for the pair — in particular after any operation sequence that never
stored to the pair — and that outcome is distinguishable from a store-access
failure: `KeyNotFound` maps to HTTP 404, `Database` to HTTP 500. -/
theorem claim_C5_get_not_found :
    (∀ (db : Db) (project : Uuid) (key : String),
        get_entry db project key = .err (.KeyNotFound key) ↔
          ∀ r ∈ db.entries, ¬(r.project_id = project ∧ r.key = key)) ∧
    (∀ (ops : List Op) (project : Uuid) (key : String),
        (∀ op ∈ ops, storesTo project key op = false) →
        get_entry (applyOps emptyDb ops) project key = .err (.KeyNotFound key)) ∧
    (∀ (key2 msg : String),
        (AppError.KeyNotFound key2).statusCode = 404 ∧
        (AppError.Database msg).statusCode = 500 ∧
        (AppError.KeyNotFound key2).statusCode ≠ (AppError.Database msg).statusCode) :=
  ⟨fun db project key => (get_entry_err_iff ..).trans (findEntry_none_iff ..),
   fun ops project key hops =>
     (get_entry_err_iff ..).mpr (noEntry_applyOps ops project key emptyDb rfl hops),
   fun _ _ => ⟨rfl, rfl, fun h => by simp [AppError.statusCode] at h⟩⟩

/-- Witness for claim C5: after a sequence that stores only under the key
`other`, reading the key `user:1` yields `KeyNotFound`. -/
theorem claim_C5_witness :
    get_entry (applyOps emptyDb [Op.store 7 keyOther none [1] 0]) 7 keyUser1 =
      .err (.KeyNotFound keyUser1) :=
  claim_C5_get_not_found.2.1 [Op.store 7 keyOther none [1] 0] 7 keyUser1 (by decide)

/-- Claim C6: `delete_entry` reports `KeyNotFound` exactly when no row exists
for the pair and `204` success exactly when one does; it removes that row and
disturbs no other pair; deleting right after a successful store succeeds, and
an immediately repeated delete of the same pair yields `KeyNotFound`. -/
theorem claim_C6_delete :
    (∀ (db : Db) (project : Uuid) (key : String),
        ((delete_entry db project key).2 = .err (.KeyNotFound key) ↔
          findEntry db project key = none) ∧
        ((delete_entry db project key).2 = .ok 204 ↔
          findEntry db project key ≠ none) ∧
        findEntry (delete_entry db project key).1 project key = none) ∧
    (∀ (db : Db) (project : Uuid) (key : String) (p2 : Uuid) (k2 : String),
        ¬(p2 = project ∧ k2 = key) →
        findEntry (delete_entry db project key).1 p2 k2 = findEntry db p2 k2) ∧
    (∀ (db : Db) (project : Uuid) (key : String) (contentType : Option String)
        (body : Bytes) (now : Nat),
        (delete_entry (store_entry db project key contentType body now).1 project key).2 =
          .ok 204 ∧
        (delete_entry (delete_entry (store_entry db project key contentType body now).1
            project key).1 project key).2 = .err (.KeyNotFound key)) :=
  ⟨fun db project key =>
      ⟨delete_entry_err_iff .., delete_entry_ok_iff .., find_after_delete ..⟩,
   find_delete_other,
   fun db project key contentType body now =>
     ⟨(delete_entry_ok_iff ..).mpr (by
        show findEntry (store_entry db project key contentType body now).1 project key ≠ none
        unfold findEntry
        rw [store_entry_fst_entries, find_upsertEntry]
        simp),
      (delete_entry_err_iff ..).mpr (find_after_delete ..)⟩⟩

/-- Witness for claim C6: deleting `use_case` from the example store leaves
`user:1` untouched. -/
theorem claim_C6_witness :
    findEntry (delete_entry exDb 1 keyUseCase).1 1 keyUser1 = findEntry exDb 1 keyUser1 :=
  claim_C6_delete.2.1 exDb 1 keyUseCase 1 keyUser1 (by decide)

/-- Claim C7: the full listing of a project returns exactly its entries as
`(key, mime_type)` pairs (a permutation of the project's rows projected to
`KeyInfo`, so content is structurally absent), sorted ascending by
codepoint-lexicographic key order, and a project with zero entries —
including a never-created one — yields the empty sequence, not an error. -/
theorem claim_C7_list_all :
    (∀ (db : Db) (project : Uuid),
        (list_entries_all db project).Perm
          ((db.entries.filter (fun r => r.project_id == project)).map entryKeyInfo) ∧
        List.Sorted keyLe (list_entries_all db project)) ∧
    (∀ (db : Db) (project : Uuid),
        (∀ r ∈ db.entries, r.project_id ≠ project) → list_entries_all db project = []) :=
  ⟨fun db project =>
      ⟨List.perm_insertionSort .., List.sorted_insertionSort ..⟩,
   fun db project h => by
      unfold list_entries_all
      have hf : db.entries.filter (fun r => r.project_id == project) = [] := by
        rw [List.filter_eq_nil_iff]
        intro r hr
        simpa using h r hr
      rw [hf]
      rfl⟩

/-- Witness for claim C7: the example store has no entries under project 99,
so its full listing is empty. -/
theorem claim_C7_witness : list_entries_all exDb 99 = [] :=
  claim_C7_list_all.2 exDb 99 (by decide)

/-- Claim C8: a store with no caller-supplied content type records the
default `application/octet-stream` in the entry row, and a subsequent read
returns that default as the content type. -/
theorem claim_C8_default_mime (db : Db) (project : Uuid) (key : String)
    (content : Bytes) (now : Nat) :
    findEntry (store_entry db project key none content now).1 project key =
      some ⟨project, key, octetStream, content, now⟩ ∧
    get_entry (store_entry db project key none content now).1 project key =
      .ok ⟨200, octetStream, content⟩ :=
  ⟨by unfold findEntry; rw [store_entry_fst_entries, find_upsertEntry]; rfl,
   get_after_store db project key none content now⟩

/-- Claim C9: the escaping transform of `list_entries` (escape character
first, then each metacharacter) equals the canonical per-character escaping —
so the result is independent of which metacharacter appears first in the
input — and the constructed match patterns are injective: distinct requested
strings yield distinct patterns. -/
theorem claim_C9_escape_unambiguous :
    (∀ p : List Char, escapeLike p = escapeFlat p) ∧
    (∀ a b : List Char, escapeLike a ++ ['%'] = escapeLike b ++ ['%'] → a = b) :=
  ⟨escapeLike_eq_escapeFlat,
   fun a b h => by
     apply escapeFlat_injective
     rw [← escapeLike_eq_escapeFlat, ← escapeLike_eq_escapeFlat]
     exact List.append_cancel_right h⟩

/-- Witness for claim C9 at the metacharacter-bearing input `100%`. -/
theorem claim_C9_witness : pfx100.data = pfx100.data :=
  claim_C9_escape_unambiguous.2 pfx100.data pfx100.data rfl

/-- Claim C10: prefix listing with the empty string coincides with the full
listing — the empty prefix matches every key. -/
theorem claim_C10_empty_prefix (db : Db) (project : Uuid) :
    list_entries db project emptyPfx = list_entries_all db project := by
  rw [list_entries_eq_spec]
  unfold listByPrefixSpec list_entries_all
  congr 1
  congr 1
  apply List.filter_congr
  intro r _
  show (r.project_id == project && (emptyPfx.data).isPrefixOf r.key.data) =
    (r.project_id == project)
  have h0 : (emptyPfx.data).isPrefixOf r.key.data = true := by
    cases hk : r.key.data <;> rfl
  rw [h0, Bool.and_true]

end Forgettable
